import Mathlib

/-!
Shallow embedding of the MergeOrderLog pipeline (src/main.go).

Lines and file contents are modelled as `List Char` (Go operates on bytes;
all content relevant to the claims is ASCII, where the two coincide).
Physical file contents keep their newline characters; the various read
loops of the program are modelled by explicit functions on contents.
-/

namespace MergeOrderLog

/-- The line-continuation sentinel token `appTesting` (src/main.go:25). -/
def lineContinuationDelimiter : List Char := "appTesting".toList

/-- Source text of the comma regex `\d{4}-\d{2}-\d{2} \d{2}:\d{2}:\d{2},\d{3}`
(src/main.go:23). -/
def defaultPattern : List Char :=
  "\\d\x7b4\x7d-\\d\x7b2\x7d-\\d\x7b2\x7d \\d\x7b2\x7d:\\d\x7b2\x7d:\\d\x7b2\x7d,\\d\x7b3\x7d".toList

/-- Source text of the period regex `\d{4}-\d{2}-\d{2} \d{2}:\d{2}:\d{2}\.\d{3}`
(src/main.go:24). -/
def supportPattern : List Char :=
  "\\d\x7b4\x7d-\\d\x7b2\x7d-\\d\x7b2\x7d \\d\x7b2\x7d:\\d\x7b2\x7d:\\d\x7b2\x7d\\.\\d\x7b3\x7d".toList

/-- Whether the first list occurs literally at the head of the second. -/
def leadsWith : List Char → List Char → Bool
  | [], _ => true
  | _ :: _, [] => false
  | a :: as, b :: bs => a == b && leadsWith as bs

/-- One token of the timestamp shape: a decimal digit (`\d`, which in Go
regexp matches exactly `[0-9]`) or a literal character. -/
inductive PatTok where
  | digit : PatTok
  | lit : Char → PatTok
deriving DecidableEq

/-- The token sequence described by the two timestamp regexes, parametrised by
the fractional-second separator (`,` for `defaultPattern`, `.` for
`supportPattern`). -/
def timeToks (sep : Char) : List PatTok :=
  [.digit, .digit, .digit, .digit, .lit '-', .digit, .digit, .lit '-', .digit, .digit,
   .lit ' ', .digit, .digit, .lit ':', .digit, .digit, .lit ':', .digit, .digit,
   .lit sep, .digit, .digit, .digit]

/-- Whether a character matches a single pattern token. -/
def tokMatches : PatTok → Char → Bool
  | .digit, c => c.isDigit
  | .lit a, c => a == c

/-- Whether the token list matches a prefix of `cs`; on success the loop in
`matchHere` consumes exactly `toks.length` characters. -/
def matchHere : List PatTok → List Char → Bool
  | [], _ => true
  | _ :: _, [] => false
  | t :: ts, c :: cs => tokMatches t c && matchHere ts cs

/-- Leftmost match of the timestamp token shape anywhere in the line, returning
the matched substring; models `regexp.FindString` for the two timestamp
regexes (fixed match length, no alternation, so the leftmost match starts at
the leftmost matching position). -/
def findTemplate (sep : Char) : List Char → Option (List Char)
  | [] => none
  | c :: cs =>
    if matchHere (timeToks sep) (c :: cs) then some (List.take (timeToks sep).length (c :: cs))
    else findTemplate sep cs

/-- Models `regexp.MatchString` (unanchored containment) for the two timestamp
regexes. -/
def matchesTemplate (sep : Char) (s : List Char) : Bool :=
  (findTemplate sep s).isSome

/-- Models Go regexp matching restricted to the three pattern strings the
program ever compiles: `defaultPattern`, `supportPattern` and the empty
pattern (`regexp.Compile("")` yields a regex that matches every string). -/
def regexMatchString (pat : List Char) (s : List Char) : Bool :=
  if pat = defaultPattern then matchesTemplate ',' s
  else if pat = supportPattern then matchesTemplate '.' s
  else if pat = [] then true
  else false

/-- Models `regexp.FindString` for the compiled detected pattern. -/
def regexFindString (pat : List Char) (s : List Char) : Option (List Char) :=
  if pat = defaultPattern then findTemplate ',' s
  else if pat = supportPattern then findTemplate '.' s
  else if pat = [] then some []
  else none

/-- Strips trailing `\r` and `\n` characters; models
`strings.TrimRight(line, "\r\n")` (src/main.go:246,410). -/
def trimRightCRLF (cs : List Char) : List Char :=
  (cs.reverse.dropWhile (fun c => c == '\r' || c == '\n')).reverse

/-- The physical lines a `bufio.Reader.ReadString('\n')` loop yields from a
file content, each stripped of its trailing `"\r\n"` characters.  The loop
breaks on `io.EOF`, discarding the data returned together with the error, so
a final line not terminated by `'\n'` is dropped (src/main.go:237-246). -/
def readLines (content : List Char) : List (List Char) :=
  ((content.splitOn '\n').dropLast).map trimRightCRLF

/-- The tokens a `bufio.Scanner` with the default `ScanLines` split yields:
every `'\n'`-terminated segment plus a final non-terminated segment when
non-empty, each with at most one trailing `'\r'` removed. -/
def scanLines (content : List Char) : List (List Char) :=
  let segs := content.splitOn '\n'
  let toks := if segs.getLast? = some [] then segs.dropLast else segs
  toks.map (fun s => if s.getLast? = some '\r' then s.dropLast else s)

/-- The pattern-classification loop of `determineDateTimePattern`
(src/main.go:278-289): inspect up to five leading lines; the first line
matching `defaultPattern` (checked first) or `supportPattern` decides; an
empty result means no pattern was found. -/
def determineDateTimePatternLines : List (List Char) → List Char
  | [] => []
  | l :: ls =>
    if matchesTemplate ',' l then defaultPattern
    else if matchesTemplate '.' l then supportPattern
    else determineDateTimePatternLines ls

/-- Models `determineDateTimePattern` (src/main.go:270-290).  The line source
is a content that is either readable (`Except.ok`) or unreadable
(`Except.error`, the `os.Open` failure path, which prints a diagnostic and
returns the empty string). -/
def determineDateTimePattern (src : Except Unit (List Char)) : List Char :=
  match src with
  | .error _ => []
  | .ok content => determineDateTimePatternLines ((scanLines content).take 5)

/-- The record-coalescing loop of `processLogFile` (src/main.go:237-265),
over already-read physical lines.  `cur` is the `currentLogEntry`
accumulator; a matching line first flushes a non-empty accumulator, a
non-matching line is appended (sentinel-joined) to a non-empty accumulator
and is skipped when the accumulator is empty. -/
def processLogFileLoop (pat : List Char) (cur : List Char) :
    List (List Char) → List (List Char)
  | [] => if cur ≠ [] then [cur] else []
  | line :: rest =>
    if regexMatchString pat line then
      (if cur ≠ [] then [cur] else []) ++ processLogFileLoop pat line rest
    else if cur ≠ [] then
      processLogFileLoop pat (cur ++ lineContinuationDelimiter ++ line) rest
    else
      processLogFileLoop pat cur rest

/-- The coalesced records `processLogFile` emits for a given compiled pattern
and line sequence. -/
def processLogFileRecords (pat : List Char) (lines : List (List Char)) : List (List Char) :=
  processLogFileLoop pat [] lines

/-- Renders a line sequence the way the program writes it when every line is
written with `WriteString(line + "\n")`. -/
def writeLinesNL (lines : List (List Char)) : List Char :=
  (lines.map (fun l => l ++ ['\n'])).flatten

/-- Models the whole of `processLogFile` (src/main.go:210-268) at the content
level: per-file pattern detection (a file with no recognized pattern is
skipped, reported as `none`), then the coalescing loop over the `ReadString`
lines, each record written with a trailing newline. -/
def processLogFile (content : List Char) : Option (List Char) :=
  let pat := determineDateTimePattern (.ok content)
  if pat = [] then none
  else some (writeLinesNL (processLogFileRecords pat (readLines content)))

/-- Splits a line at each non-overlapping leftmost occurrence of the sentinel
`lineContinuationDelimiter`; models
`strings.Split(line, lineContinuationDelimiter)` (src/main.go:421).  The
fuel only serves structural recursion; it exceeds the input length and never
runs out. -/
def splitOnDelimGo : Nat → List Char → List (List Char)
  | 0, cs => [cs]
  | _ + 1, [] => [[]]
  | fuel + 1, c :: cs =>
    if leadsWith lineContinuationDelimiter (c :: cs) then
      [] :: splitOnDelimGo fuel (List.drop lineContinuationDelimiter.length (c :: cs))
    else
      match splitOnDelimGo fuel cs with
      | [] => [[c]]
      | h :: t => (c :: h) :: t

/-- `strings.Split(line, lineContinuationDelimiter)`. -/
def splitOnDelim (cs : List Char) : List (List Char) :=
  splitOnDelimGo (cs.length + 1) cs

/-- Whether the sentinel occurs as a substring of `cs`. -/
def containsDelim : List Char → Bool
  | [] => false
  | c :: cs => leadsWith lineContinuationDelimiter (c :: cs) || containsDelim cs

/-- The expansion loop of `formatSupport` (src/main.go:401-436): a line
matching the pattern first flushes the buffer of non-matching lines, then is
split on the sentinel into fragments emitted in order; a non-matching line is
buffered; the buffer is flushed at end of input. -/
def formatSupportLoop (pat : List Char) (buf : List (List Char)) :
    List (List Char) → List (List Char)
  | [] => buf
  | line :: rest =>
    if regexMatchString pat line then
      buf ++ splitOnDelim line ++ formatSupportLoop pat [] rest
    else
      formatSupportLoop pat (buf ++ [line]) rest

/-- The output lines of `formatSupport` for a given pattern and input lines. -/
def formatSupportLines (pat : List Char) (lines : List (List Char)) : List (List Char) :=
  formatSupportLoop pat [] lines

/-- Models `formatSupport` (src/main.go:382-437) at the content level: the
input is read with the `ReadString` loop (dropping a final non-terminated
line), and every emitted line is written with a trailing newline. -/
def formatSupport (pat : List Char) (content : List Char) : List Char :=
  writeLinesNL (formatSupportLines pat (readLines content))


/-- Replaces the first `','` with `'.'`; models
`strings.Replace(match, ",", ".", 1)` (src/main.go:374). -/
def replaceFirstComma : List Char → List Char
  | [] => []
  | c :: cs => if c == ',' then '.' :: cs else c :: replaceFirstComma cs

/-- A calendar instant as produced by Go `time.Parse` with layout
`"2006-01-02 15:04:05.000"` (always UTC, no zone in the layout).  For
instants whose fields are within the ranges `time.Parse` validates,
`time.Time.Before` coincides with lexicographic field order. -/
structure Instant where
  year : Nat
  month : Nat
  day : Nat
  hour : Nat
  minute : Nat
  second : Nat
  milli : Nat
deriving DecidableEq, Repr, Inhabited

/-- The Go zero `time.Time{}`: January 1, year 1, 00:00:00 UTC, which is what
`parseTimestampFromLine` returns on any failure. -/
def zeroInstant : Instant := ⟨1, 1, 1, 0, 0, 0, 0⟩

/-- Models `time.Time.Before` for instants produced by the parse model. -/
def instantBefore (x y : Instant) : Bool :=
  if x.year ≠ y.year then decide (x.year < y.year)
  else if x.month ≠ y.month then decide (x.month < y.month)
  else if x.day ≠ y.day then decide (x.day < y.day)
  else if x.hour ≠ y.hour then decide (x.hour < y.hour)
  else if x.minute ≠ y.minute then decide (x.minute < y.minute)
  else if x.second ≠ y.second then decide (x.second < y.second)
  else decide (x.milli < y.milli)

/-- Numeric value of a decimal digit character. -/
def digitVal (c : Char) : Nat := c.toNat - 48

/-- Gregorian leap-year rule, as in Go `time.isLeap`. -/
def isLeap (y : Nat) : Bool := y % 4 == 0 && (y % 100 != 0 || y % 400 == 0)

/-- Days in a month, as in Go `time.daysIn`. -/
def daysIn (m y : Nat) : Nat :=
  if m = 2 then (if isLeap y then 29 else 28)
  else if m = 4 ∨ m = 6 ∨ m = 9 ∨ m = 11 then 30
  else 31

/-- Models Go `time.Parse("2006-01-02 15:04:05.000", value)`: the value must
have exactly the layout shape, and the field ranges `time.Parse` checks must
hold (month 1-12, day 1-daysIn, hour below 24, minute and second below 60);
the four-digit year is not range-checked.  `none` models a parse error. -/
def parseGoTime (cs : List Char) : Option Instant :=
  match cs with
  | [y1, y2, y3, y4, s1, mo1, mo2, s2, d1, d2, s3, h1, h2, s4, mi1, mi2, s5,
     se1, se2, s6, f1, f2, f3] =>
    if (y1.isDigit && y2.isDigit && y3.isDigit && y4.isDigit &&
        s1 == '-' && mo1.isDigit && mo2.isDigit &&
        s2 == '-' && d1.isDigit && d2.isDigit &&
        s3 == ' ' && h1.isDigit && h2.isDigit &&
        s4 == ':' && mi1.isDigit && mi2.isDigit &&
        s5 == ':' && se1.isDigit && se2.isDigit &&
        s6 == '.' && f1.isDigit && f2.isDigit && f3.isDigit) then
      let year := ((digitVal y1 * 10 + digitVal y2) * 10 + digitVal y3) * 10 + digitVal y4
      let month := digitVal mo1 * 10 + digitVal mo2
      let day := digitVal d1 * 10 + digitVal d2
      let hour := digitVal h1 * 10 + digitVal h2
      let minute := digitVal mi1 * 10 + digitVal mi2
      let second := digitVal se1 * 10 + digitVal se2
      let milli := (digitVal f1 * 10 + digitVal f2) * 10 + digitVal f3
      if 1 ≤ month ∧ month ≤ 12 ∧ 1 ≤ day ∧ day ≤ daysIn month year ∧
         hour < 24 ∧ minute < 60 ∧ second < 60 then
        some ⟨year, month, day, hour, minute, second, milli⟩
      else none
    else none
  | _ => none

/-- Models `parseTimestampFromLine` (src/main.go:369-380): find the leftmost
pattern match in the line (an empty match is the "no timestamp found" error),
normalize the first comma to a period, and parse; `none` is the error case,
in which the caller keeps the zero `time.Time`. -/
def parseTimestampFromLine (pat : List Char) (line : List Char) : Option Instant :=
  match regexFindString pat line with
  | none => none
  | some m => if m = [] then none else parseGoTime (replaceFirstComma m)

/-- `LogLine` (src/main.go:30-33): a parsed timestamp and the raw line. -/
structure LogLine where
  Timestamp : Instant
  Raw : List Char
deriving DecidableEq, Repr, Inhabited

/-- The `LogLine` built by `orderByDate` for one raw line
(src/main.go:343-352): the timestamp is the zero `time.Time` when parsing
fails. -/
def mkLogLine (pat : List Char) (l : List Char) : LogLine :=
  { Timestamp := (parseTimestampFromLine pat l).getD zeroInstant, Raw := l }

/-- The comparator closure passed to `sort.Slice` (src/main.go:354-356). -/
def lessLogLine (x y : LogLine) : Bool := instantBefore x.Timestamp y.Timestamp

section GoSort

variable {α : Type} [Inhabited α]

/-- `bits.Len`: the number of bits required to represent `n` (fuelled
structural recursion; the fuel never runs out). -/
def bitsLenGo : Nat → Nat → Nat
  | 0, _ => 0
  | fuel + 1, n => if n = 0 then 0 else bitsLenGo fuel (n / 2) + 1

/-- `bits.Len(n)`. -/
def bitsLen (n : Nat) : Nat := bitsLenGo n n

/-- `data.Less(i, j)` on the modelled slice. -/
def lessAt (less : α → α → Bool) (l : List α) (i j : Nat) : Bool :=
  less (l.getD i default) (l.getD j default)

/-- `data.Swap(i, j)`.  Go panics out of bounds, which no execution of the
program reaches; the model is a no-op there. -/
def swapAt (l : List α) (i j : Nat) : List α :=
  if i < l.length ∧ j < l.length then
    (l.set i (l.getD j default)).set j (l.getD i default)
  else l

variable (less : α → α → Bool)

/-- Inner loop of `insertionSort_func`: starting from index `j`, swap the
element left while it is strictly less than its left neighbour and `j > a`.
The argument is the current value of `j`. -/
def insertionInner (a : Nat) : List α → Nat → List α
  | l, 0 => l
  | l, j + 1 =>
    if a ≤ j && lessAt less l (j + 1) j then insertionInner a (swapAt l (j + 1) j) j
    else l

/-- Outer loop of `insertionSort_func`, `i` counting up to `b`. -/
def insertionOuter (a b : Nat) : Nat → List α → Nat → List α
  | 0, l, _ => l
  | fuel + 1, l, i =>
    if i < b then insertionOuter a b fuel (insertionInner less a l i) (i + 1) else l

/-- `insertionSort_func(data, a, b)` from Go's sort package. -/
def insertionSortGo (l : List α) (a b : Nat) : List α :=
  insertionOuter less a b (b + 1) l (a + 1)

/-- `siftDown_func(data, lo, hi, first)`; `root` is the loop variable. -/
def siftDownLoop : Nat → List α → Nat → Nat → Nat → List α
  | 0, l, _, _, _ => l
  | fuel + 1, l, hi, first, root =>
    if 2 * root + 1 < hi then
      let child0 := 2 * root + 1
      if child0 + 1 < hi ∧ lessAt less l (first + child0) (first + child0 + 1) = true then
        (if lessAt less l (first + root) (first + child0 + 1) then
          siftDownLoop fuel (swapAt l (first + root) (first + child0 + 1)) hi first (child0 + 1)
        else l)
      else
        (if lessAt less l (first + root) (first + child0) then
          siftDownLoop fuel (swapAt l (first + root) (first + child0)) hi first child0
        else l)
    else l

/-- Heap-building loop of `heapSort_func`: runs `siftDown` for
`i = k-1, k-2, ..., 0`. -/
def heapBuildLoop (hi first : Nat) : List α → Nat → List α
  | l, 0 => l
  | l, k + 1 => heapBuildLoop hi first (siftDownLoop less (hi + 1) l hi first k) k

/-- Pop loop of `heapSort_func`: for `i = k-1, ..., 0`, swap the maximum to
position `first+i` and sift down within `[0, i)`. -/
def heapPopLoop (first : Nat) : List α → Nat → List α
  | l, 0 => l
  | l, k + 1 => heapPopLoop first (siftDownLoop less (k + 1) (swapAt l first (first + k)) k first 0) k

/-- `heapSort_func(data, a, b)` from Go's sort package. -/
def heapSortGo (l : List α) (a b : Nat) : List α :=
  heapPopLoop less a (heapBuildLoop less (b - a) a l ((b - a - 1) / 2 + 1)) (b - a)

/-- Loop of `reverseRange_func`. -/
def reverseLoop : Nat → List α → Nat → Nat → List α
  | 0, l, _, _ => l
  | fuel + 1, l, i, j => if i < j then reverseLoop fuel (swapAt l i j) (i + 1) (j - 1) else l

/-- `reverseRange_func(data, a, b)` from Go's sort package. -/
def reverseRangeGo (l : List α) (a b : Nat) : List α :=
  reverseLoop (b + 1) l a (b - 1)

/-- One step of Go's `xorshift` pseudo-random generator (64-bit state). -/
def xorshiftNext (r : Nat) : Nat :=
  let r := (r ^^^ (r <<< 13)) % 2 ^ 64
  let r := (r ^^^ (r >>> 7)) % 2 ^ 64
  (r ^^^ (r <<< 17)) % 2 ^ 64

/-- One iteration of the swap loop in `breakPatterns_func`. -/
def breakPatternsStep (a len modulus idx : Nat) (st : List α × Nat) (i : Nat) :
    List α × Nat :=
  let random := xorshiftNext st.2
  let other := random % modulus
  let other := if len ≤ other then other - len else other
  (swapAt st.1 (idx - 1 + i) (a + other), random)

/-- `breakPatterns_func(data, a, b)` from Go's sort package: three
pseudo-random swaps around the middle pivot candidate (only for ranges of
length at least 8). -/
def breakPatternsGo (l : List α) (a b : Nat) : List α :=
  let len := b - a
  if 8 ≤ len then
    let modulus := 2 ^ bitsLen len
    let idx := a + len / 4 * 2 - 1
    (breakPatternsStep a len modulus idx
      (breakPatternsStep a len modulus idx
        (breakPatternsStep a len modulus idx (l, len) 0) 1) 2).1
  else l

/-- The three sortedness hints of Go's pdqsort. -/
inductive SortHint where
  | unknown : SortHint
  | increasing : SortHint
  | decreasing : SortHint
deriving DecidableEq, Repr

/-- `order2_func`: order two indices by the elements they point to, counting
a swap. -/
def order2 (l : List α) (a b swaps : Nat) : Nat × Nat × Nat :=
  if lessAt less l b a then (b, a, swaps + 1) else (a, b, swaps)

/-- `median_func`: the index of the median of three elements. -/
def medianOf (l : List α) (a b c swaps : Nat) : Nat × Nat :=
  let (a, b, swaps) := order2 less l a b swaps
  let (b, _, swaps) := order2 less l b c swaps
  let (_, b, swaps) := order2 less l a b swaps
  (b, swaps)

/-- `medianAdjacent_func`: the median of an index and its two neighbours. -/
def medianAdjacent (l : List α) (a swaps : Nat) : Nat × Nat :=
  medianOf less l (a - 1) a (a + 1) swaps

/-- `choosePivot_func`: pivot selection with a sortedness hint.  Ranges of
length at least 8 use median of three; length at least 50 uses Tukey ninther;
the hint reports whether the comparisons saw zero or the maximal number of
inversions. -/
def choosePivot (l : List α) (a b : Nat) : Nat × SortHint :=
  let len := b - a
  let i := a + len / 4 * 1
  let j := a + len / 4 * 2
  let k := a + len / 4 * 3
  let (j, swaps) :=
    if 8 ≤ len then
      if 50 ≤ len then
        let (i, s1) := medianAdjacent less l i 0
        let (j, s2) := medianAdjacent less l j s1
        let (k, s3) := medianAdjacent less l k s2
        medianOf less l i j k s3
      else
        medianOf less l i j k 0
    else (j, 0)
  if swaps = 0 then (j, SortHint.increasing)
  else if swaps = 12 then (j, SortHint.decreasing)
  else (j, SortHint.unknown)

/-- Scan of `partialInsertionSort_func`: advance `i` while the element is not
strictly less than its left neighbour. -/
def piScanI (l : List α) (b : Nat) : Nat → Nat → Nat
  | 0, i => i
  | fuel + 1, i =>
    if i < b then (if lessAt less l i (i - 1) then i else piScanI l b fuel (i + 1)) else i

/-- Left shift loop of `partialInsertionSort_func` (`j` counts down to 1). -/
def piShiftLeft : List α → Nat → List α
  | l, 0 => l
  | l, j + 1 =>
    if lessAt less l (j + 1) j then piShiftLeft (swapAt l (j + 1) j) j else l

/-- Right shift loop of `partialInsertionSort_func` (`j` counts up to `b`). -/
def piShiftRight (b : Nat) : Nat → List α → Nat → List α
  | 0, l, _ => l
  | fuel + 1, l, j =>
    if j < b then
      (if lessAt less l j (j - 1) then piShiftRight b fuel (swapAt l j (j - 1)) (j + 1) else l)
    else l

/-- The `maxSteps`-bounded outer loop of `partialInsertionSort_func`. -/
def partialInsertionLoop (a b : Nat) : Nat → List α → Nat → List α × Bool
  | 0, l, _ => (l, false)
  | steps + 1, l, i =>
    let i := piScanI less l b (b + 1) i
    if i = b then (l, true)
    else if b - a < 50 then (l, false)
    else
      let l := swapAt l i (i - 1)
      let l := if 2 ≤ i - a then piShiftLeft less l (i - 1) else l
      let l := if 2 ≤ b - i then piShiftRight less b (b + 1) l (i + 1) else l
      partialInsertionLoop a b steps l i

/-- `partialInsertionSort_func(data, a, b)`: sorts if at most `maxSteps = 5`
adjacent out-of-order pairs remain, reporting success. -/
def partialInsertionSortGo (l : List α) (a b : Nat) : List α × Bool :=
  partialInsertionLoop less a b 5 l (a + 1)

/-- First scan of `partition_func`: advance `i` over elements less than the
pivot at `a` (fuelled; the fuel never runs out at the call sites). -/
def partScanI (l : List α) (a j : Nat) : Nat → Nat → Nat
  | 0, i => i
  | fuel + 1, i => if i ≤ j && lessAt less l i a then partScanI l a j fuel (i + 1) else i

/-- Second scan of `partition_func`: move `j` down over elements not less
than the pivot at `a`. -/
def partScanJ (l : List α) (a i : Nat) : Nat → Nat → Nat
  | 0, j => j
  | fuel + 1, j => if i ≤ j && !lessAt less l j a then partScanJ l a i fuel (j - 1) else j

/-- Main loop of `partition_func` after the first crossing: scan, swap,
repeat until the indices cross; returns the state at exit. -/
def partitionLoop (a b : Nat) : Nat → List α → Nat → Nat → List α × Nat × Nat
  | 0, l, i, j => (l, i, j)
  | fuel + 1, l, i, j =>
    let i := partScanI less l a j (b + 2) i
    let j := partScanJ less l a i (b + 2) j
    if i > j then (l, i, j)
    else partitionLoop a b fuel (swapAt l i j) (i + 1) (j - 1)

/-- `partition_func(data, a, b, pivot)`: Hoare-style partition around the
pivot moved to position `a`; returns the new pivot position and whether the
range was already partitioned. -/
def partitionGo (l : List α) (a b pivot : Nat) : List α × Nat × Bool :=
  let l := swapAt l a pivot
  let i := partScanI less l a (b - 1) (b + 2) (a + 1)
  let j := partScanJ less l a i (b + 2) (b - 1)
  if i > j then
    (swapAt l j a, j, true)
  else
    let res := partitionLoop less a b (b + 2) (swapAt l i j) (i + 1) (j - 1)
    (swapAt res.1 res.2.2 a, res.2.2, false)

/-- First scan of `partitionEqual_func`: advance `i` over elements not
greater than the pivot at `a`. -/
def peScanI (l : List α) (a j : Nat) : Nat → Nat → Nat
  | 0, i => i
  | fuel + 1, i => if i ≤ j && !lessAt less l a i then peScanI l a j fuel (i + 1) else i

/-- Second scan of `partitionEqual_func`: move `j` down over elements
greater than the pivot at `a`. -/
def peScanJ (l : List α) (a i : Nat) : Nat → Nat → Nat
  | 0, j => j
  | fuel + 1, j => if i ≤ j && lessAt less l a j then peScanJ l a i fuel (j - 1) else j

/-- Loop of `partitionEqual_func`. -/
def partitionEqualLoop (a b : Nat) : Nat → List α → Nat → Nat → List α × Nat
  | 0, l, i, _ => (l, i)
  | fuel + 1, l, i, j =>
    let i := peScanI less l a j (b + 2) i
    let j := peScanJ less l a i (b + 2) j
    if i > j then (l, i)
    else partitionEqualLoop a b fuel (swapAt l i j) (i + 1) (j - 1)

/-- `partitionEqual_func(data, a, b, pivot)`: partitions elements equal to
the pivot (moved to `a`) to the front, returning the first index past
them. -/
def partitionEqualGo (l : List α) (a b pivot : Nat) : List α × Nat :=
  partitionEqualLoop less a b (b + 2) (swapAt l a pivot) (a + 1) (b - 1)

/-- The body of `pdqsort_func(data, a, b, limit)` from Go's sort package
(the implementation behind `sort.Slice` since Go 1.19, including Go 1.23 as
pinned by this repository's CI).  The `for` loop and the recursive calls are
both modelled as fuelled recursion; the fuel at the entry point strictly
exceeds the longest possible chain of iterations, so it never runs out. -/
def pdqsortLoop : Nat → List α → Nat → Nat → Nat → Bool → Bool → List α
  | 0, l, _, _, _, _, _ => l
  | fuel + 1, l, a, b, limit, wasBalanced, wasPartitioned =>
    if b - a ≤ 12 then insertionSortGo less l a b
    else if limit = 0 then heapSortGo less l a b
    else
      let bl := if wasBalanced = false then (breakPatternsGo l a b, limit - 1) else (l, limit)
      let cp := choosePivot less bl.1 a b
      let rv :=
        if cp.2 = SortHint.decreasing then
          (reverseRangeGo bl.1 a b, (b - 1) - (cp.1 - a), SortHint.increasing)
        else (bl.1, cp.1, cp.2)
      let pi :=
        if wasBalanced = true ∧ wasPartitioned = true ∧ rv.2.2 = SortHint.increasing then
          partialInsertionSortGo less rv.1 a b
        else (rv.1, false)
      if pi.2 then pi.1
      else if 0 < a ∧ lessAt less pi.1 (a - 1) rv.2.1 = false then
        let pe := partitionEqualGo less pi.1 a b rv.2.1
        pdqsortLoop fuel pe.1 pe.2 b bl.2 wasBalanced wasPartitioned
      else
        let pr := partitionGo less pi.1 a b rv.2.1
        if pr.2.1 - a < b - pr.2.1 then
          pdqsortLoop fuel (pdqsortLoop fuel pr.1 a pr.2.1 bl.2 true true)
            (pr.2.1 + 1) b bl.2
            (decide ((b - a) / 8 ≤ min (pr.2.1 - a) (b - pr.2.1))) pr.2.2
        else
          pdqsortLoop fuel (pdqsortLoop fuel pr.1 (pr.2.1 + 1) b bl.2 true true)
            a pr.2.1 bl.2
            (decide ((b - a) / 8 ≤ min (pr.2.1 - a) (b - pr.2.1))) pr.2.2

/-- `sort.Slice(x, less)`: `pdqsort` over the whole slice with
`limit = bits.Len(n)`.  Every step of `pdqsortLoop` strictly shrinks the
range `[a, b)`, so `2n + 8` units of fuel can never be exhausted. -/
def sortSlice (l : List α) : List α :=
  pdqsortLoop less (2 * l.length + 8) l 0 l.length (bitsLen l.length) true true

end GoSort

/-- Joins lines with `'\n'` separators (no trailing newline); models
`strings.Join(lines, "\n")` (src/main.go:334,363). -/
def joinNL (lines : List (List Char)) : List Char :=
  List.intercalate ['\n'] lines

/-- The sorted raw lines `orderByDate` produces from the raw line sequence
when a pattern is present (src/main.go:340-361). -/
def orderByDateLines (pat : List Char) (rawLines : List (List Char)) : List (List Char) :=
  (sortSlice lessLogLine (rawLines.map (mkLogLine pat))).map LogLine.Raw

/-- Models `orderByDate` (src/main.go:324-367) at the content level: the
whole file is read, trailing `"\r\n"` characters of the whole content are
trimmed, the rest is split on `'\n'` (keeping every segment); with an empty
pattern the lines are written back unchanged, otherwise sorted by parsed
timestamp; either way the output is newline-joined with no trailing
newline. -/
def orderByDate (pat : List Char) (content : List Char) : List Char :=
  let rawLines := (trimRightCRLF content).splitOn '\n'
  if pat = [] then joinNL rawLines
  else joinNL (orderByDateLines pat rawLines)

/-- The part of a content a verbatim `ReadString('\n')` copy loop preserves:
everything up to and including the last newline (src/main.go:308-319). -/
def keepThroughLastNL (c : List Char) : List Char :=
  (c.reverse.dropWhile (fun ch => ch != '\n')).reverse

/-- Models `mergeProcessedLogs` (src/main.go:292-322): the readable inputs'
contents are concatenated in list order, each copied line by line (so a final
line not terminated by `'\n'` is dropped). -/
def mergeProcessedLogs (contents : List (List Char)) : List Char :=
  (contents.map keepThroughLastNL).flatten

/-- Big-endian digit emission for `natChars` (fuelled structural recursion;
the fuel never runs out). -/
def natCharsGo : Nat → Nat → List Char
  | 0, _ => []
  | fuel + 1, n =>
    if n = 0 then [] else natCharsGo fuel (n / 10) ++ [Char.ofNat (48 + n % 10)]

/-- Decimal rendering of a natural number, as `fmt.Sprintf("%d", n)`. -/
def natChars (n : Nat) : List Char :=
  if n = 0 then ['0'] else natCharsGo n n

/-- `filepath.Base` for the slash-containing paths the program builds: the
last path element. -/
def baseOf (p : List Char) : List Char :=
  (p.reverse.takeWhile (fun c => c != '/')).reverse

/-- `filepath.Dir` (whose final `Clean` is the identity on the already-clean
paths the program builds): everything before the last slash, `"."` when
there is no slash, `"/"` when the only slash is leading. -/
def dirOf (p : List Char) : List Char :=
  let restRev := p.reverse.dropWhile (fun c => c != '/')
  if restRev = [] then ['.']
  else if restRev.drop 1 = [] then ['/']
  else (restRev.drop 1).reverse

/-- `filepath.Ext`: the suffix of the last element beginning at its final
dot, empty if the last element has no dot. -/
def extOf (p : List Char) : List Char :=
  let b := baseOf p
  if '.' ∈ b then '.' :: (b.reverse.takeWhile (fun c => c != '.')).reverse
  else []

/-- `strings.TrimSuffix(filepath.Base(p), filepath.Ext(p))`: the base name
without its extension (the extension is a suffix of the base by
construction). -/
def stemOf (p : List Char) : List Char :=
  let b := baseOf p
  b.take (b.length - (extOf p).length)

/-- `filepath.Join(directory, name)` for the shapes `filepath.Dir`
returns. -/
def joinPath (dir name : List Char) : List Char :=
  if dir = ['.'] then name
  else if dir.getLast? = some '/' then dir ++ name
  else dir ++ '/' :: name

/-- The candidate produced in the loop body of `getUniqueFileName`:
`filepath.Join(directory, fmt.Sprintf("%s%d%s", stem, count, ext))`
(src/main.go:204). -/
def candName (p : List Char) (count : Nat) : List Char :=
  joinPath (dirOf p) (stemOf p ++ natChars count ++ extOf p)

/-- The `os.Stat` loop of `getUniqueFileName` (src/main.go:199-206).  The
file system is modelled as the list `fs` of existing paths.  The fuel
strictly exceeds the number of pairwise-distinct candidates the loop can
see collide, so it never runs out. -/
def getUniqueLoop (fs : List (List Char)) (p : List Char) : Nat → Nat → List Char → List Char
  | 0, _, cur => cur
  | fuel + 1, count, cur =>
    if cur ∈ fs then getUniqueLoop fs p fuel (count + 1) (candName p count)
    else cur

/-- Models `getUniqueFileName` (src/main.go:191-208). -/
def getUniqueFileName (fs : List (List Char)) (p : List Char) : List Char :=
  getUniqueLoop fs p (fs.length + 2) 1 p

/-- The scenario input file of the specification: a timestamped line, a
wrapped continuation line, then an earlier-timestamped line. -/
def scenarioContent : List Char :=
  "2024-01-01 10:00:00.100 start\n  stack trace\n2024-01-01 10:00:00.050 other\n".toList

/-- A 13-line merged input with two equal-timestamp lines (`A` then `B` at
millisecond 003); 13 lines exceed the insertion-sort cutoff of Go's pdqsort,
so `sort.Slice` partitions. -/
def orderStabilityInput : List (List Char) :=
  ["2024-01-01 10:00:00.003 A".toList, "2024-01-01 10:00:00.003 B".toList,
   "2024-01-01 10:00:00.012 c".toList, "2024-01-01 10:00:00.004 d".toList,
   "2024-01-01 10:00:00.009 e".toList, "2024-01-01 10:00:00.002 f".toList,
   "2024-01-01 10:00:00.007 g".toList, "2024-01-01 10:00:00.000 h".toList,
   "2024-01-01 10:00:00.010 i".toList, "2024-01-01 10:00:00.011 j".toList,
   "2024-01-01 10:00:00.008 k".toList, "2024-01-01 10:00:00.001 m".toList,
   "2024-01-01 10:00:00.005 n".toList]

/-- The output `orderByDate` produces for `orderStabilityInput`: sorted by
timestamp, but with the equal-timestamp lines `B` and `A` in reversed
relative order. -/
def orderStabilityOutput : List (List Char) :=
  ["2024-01-01 10:00:00.000 h".toList, "2024-01-01 10:00:00.001 m".toList,
   "2024-01-01 10:00:00.002 f".toList, "2024-01-01 10:00:00.003 B".toList,
   "2024-01-01 10:00:00.003 A".toList, "2024-01-01 10:00:00.004 d".toList,
   "2024-01-01 10:00:00.005 n".toList, "2024-01-01 10:00:00.007 g".toList,
   "2024-01-01 10:00:00.008 k".toList, "2024-01-01 10:00:00.009 e".toList,
   "2024-01-01 10:00:00.010 i".toList, "2024-01-01 10:00:00.011 j".toList,
   "2024-01-01 10:00:00.012 c".toList]

/-- Decimal decode, the left inverse of `natChars`. -/
def charsVal (cs : List Char) : Nat :=
  cs.foldl (fun a c => 10 * a + (c.toNat - 48)) 0

/-- The sentinel-joined record value the coalescing accumulator holds after
starting from `r` and appending the continuation fragments `rs` in order. -/
def joinRec (r : List Char) (rs : List (List Char)) : List Char :=
  rs.foldl (fun acc l => acc ++ lineContinuationDelimiter ++ l) r

/-- Whether the head line of a line sequence (if any) matches the pattern. -/
def headMatches (pat : List Char) : List (List Char) → Bool
  | [] => true
  | l :: _ => regexMatchString pat l

theorem leadsWith_iff_take (d cs : List Char) :
    leadsWith d cs = true ↔ cs.take d.length = d := by
  induction d generalizing cs with
  | nil => simp [leadsWith]
  | cons a as ih =>
    cases cs with
    | nil => simp [leadsWith]
    | cons b bs =>
      simp only [leadsWith, Bool.and_eq_true, beq_iff_eq, ih, List.length_cons,
        List.take_succ_cons, List.cons.injEq]
      constructor
      · rintro ⟨h1, h2⟩; exact ⟨h1.symm, h2⟩
      · rintro ⟨h1, h2⟩; exact ⟨h1.symm, h2⟩

theorem leadsWith_append_self (d r : List Char) : leadsWith d (d ++ r) = true := by
  rw [leadsWith_iff_take]
  exact List.take_left d r

theorem delim_length : lineContinuationDelimiter.length = 10 := by decide

theorem delim_ne_nil : lineContinuationDelimiter ≠ [] := by decide

theorem delim_no_border : ∀ k, k < 10 → 0 < k →
    List.drop k lineContinuationDelimiter ≠
      List.take (10 - k) lineContinuationDelimiter := by decide

theorem containsDelim_cons (c : Char) (cs : List Char) :
    containsDelim (c :: cs) =
      (leadsWith lineContinuationDelimiter (c :: cs) || containsDelim cs) := rfl

theorem leadsWith_cross_false (A R : List Char) (hA : A ≠ [])
    (hcont : containsDelim A = false) :
    leadsWith lineContinuationDelimiter
      (A ++ (lineContinuationDelimiter ++ R)) = false := by
  by_contra hcross
  rw [Bool.not_eq_false, leadsWith_iff_take] at hcross
  by_cases hlen : lineContinuationDelimiter.length ≤ A.length
  · have h1 : (A ++ (lineContinuationDelimiter ++ R)).take lineContinuationDelimiter.length
        = A.take lineContinuationDelimiter.length := by
      rw [List.take_append_eq_append_take]
      have h0 : lineContinuationDelimiter.length - A.length = 0 := by omega
      simp [h0]
    have h2 : leadsWith lineContinuationDelimiter A = true := by
      rw [leadsWith_iff_take, ← h1, hcross]
    cases A with
    | nil => exact hA rfl
    | cons a as =>
      rw [containsDelim_cons, h2, Bool.true_or] at hcont
      exact absurd hcont (by simp)
  · push_neg at hlen
    have hApos : 0 < A.length := List.length_pos.mpr hA
    have h1 : (A ++ (lineContinuationDelimiter ++ R)).take lineContinuationDelimiter.length
        = A ++ lineContinuationDelimiter.take (lineContinuationDelimiter.length - A.length) := by
      rw [List.take_append_eq_append_take]
      congr 1
      · exact List.take_of_length_le (by omega)
      · rw [List.take_append_eq_append_take]
        have h0 : lineContinuationDelimiter.length - A.length
            - lineContinuationDelimiter.length = 0 := by omega
        simp [h0]
    rw [h1] at hcross
    have h2 : List.drop A.length lineContinuationDelimiter
        = List.take (lineContinuationDelimiter.length - A.length) lineContinuationDelimiter := by
      conv_lhs => rw [← hcross]
      rw [List.drop_left]
    have h3 := delim_no_border A.length (by have := delim_length; omega) hApos
    rw [delim_length] at h2
    exact h3 h2

theorem splitOnDelimGo_irrel : ∀ f1 : Nat, ∀ cs : List Char, ∀ f2 : Nat,
    cs.length < f1 → cs.length < f2 → splitOnDelimGo f1 cs = splitOnDelimGo f2 cs := by
  intro f1
  induction f1 with
  | zero => intro cs f2 h1 _; omega
  | succ f1 ih =>
    intro cs f2 h1 h2
    cases f2 with
    | zero => omega
    | succ f2 =>
      cases cs with
      | nil => rfl
      | cons c cs =>
        rw [splitOnDelimGo, splitOnDelimGo]
        simp only [List.length_cons] at h1 h2
        by_cases hlw : leadsWith lineContinuationDelimiter (c :: cs) = true
        · rw [if_pos hlw, if_pos hlw,
            ih (List.drop lineContinuationDelimiter.length (c :: cs)) f2
              (by simp [delim_length]; omega) (by simp [delim_length]; omega)]
        · rw [if_neg hlw, if_neg hlw, ih cs f2 (by omega) (by omega)]

theorem splitOnDelim_cons_eq (c : Char) (cs : List Char) :
    splitOnDelim (c :: cs) =
      if leadsWith lineContinuationDelimiter (c :: cs) then
        [] :: splitOnDelim (List.drop lineContinuationDelimiter.length (c :: cs))
      else
        match splitOnDelim cs with
        | [] => [[c]]
        | h :: t => (c :: h) :: t := by
  show splitOnDelimGo ((c :: cs).length + 1) (c :: cs) = _
  rw [show (c :: cs).length + 1 = (cs.length + 1) + 1 by simp, splitOnDelimGo]
  by_cases hlw : leadsWith lineContinuationDelimiter (c :: cs) = true
  · rw [if_pos hlw, if_pos hlw,
      splitOnDelimGo_irrel (cs.length + 1) (List.drop lineContinuationDelimiter.length (c :: cs))
        ((List.drop lineContinuationDelimiter.length (c :: cs)).length + 1)
        (by simp [delim_length]; omega) (by omega)]
    rfl
  · rw [if_neg hlw, if_neg hlw]
    rfl

theorem splitOnDelim_no_delim (A : List Char) (h : containsDelim A = false) :
    splitOnDelim A = [A] := by
  induction A with
  | nil => rfl
  | cons a as ih =>
    rw [containsDelim_cons, Bool.or_eq_false_iff] at h
    rw [splitOnDelim_cons_eq, h.1, ih h.2]
    simp

theorem splitOnDelim_append (A R : List Char) (hcont : containsDelim A = false) :
    splitOnDelim (A ++ (lineContinuationDelimiter ++ R)) = A :: splitOnDelim R := by
  induction A with
  | nil =>
    rw [List.nil_append]
    rcases hdr : lineContinuationDelimiter ++ R with _ | ⟨x, xs⟩
    · exact absurd (List.append_eq_nil.mp hdr).1 delim_ne_nil
    · rw [splitOnDelim_cons_eq, ← hdr, leadsWith_append_self, if_pos rfl, List.drop_left]
  | cons a as ih =>
    rw [containsDelim_cons, Bool.or_eq_false_iff] at hcont
    have hlw : leadsWith lineContinuationDelimiter
        (a :: (as ++ (lineContinuationDelimiter ++ R))) = false := by
      have hx := leadsWith_cross_false (a :: as) R (by simp)
        (by rw [containsDelim_cons, hcont.1, hcont.2]; rfl)
      rwa [List.cons_append] at hx
    rw [List.cons_append, splitOnDelim_cons_eq, hlw, ih hcont.2]
    simp

theorem joinRec_cons (r l : List Char) (ls : List (List Char)) :
    joinRec r (l :: ls) = r ++ (lineContinuationDelimiter ++ joinRec l ls) := by
  show joinRec (r ++ lineContinuationDelimiter ++ l) ls = _
  induction ls generalizing l with
  | nil => simp [joinRec]
  | cons x xs ih =>
    show joinRec ((r ++ lineContinuationDelimiter ++ l) ++ lineContinuationDelimiter ++ x) xs = _
    rw [show (r ++ lineContinuationDelimiter ++ l) ++ lineContinuationDelimiter ++ x
        = r ++ lineContinuationDelimiter ++ (l ++ lineContinuationDelimiter ++ x) by simp, ih]
    show _ = r ++ (lineContinuationDelimiter ++ joinRec (l ++ lineContinuationDelimiter ++ x) xs)
    simp

theorem joinRec_snoc (r l : List Char) (ls : List (List Char)) :
    joinRec r (ls ++ [l]) = joinRec r ls ++ lineContinuationDelimiter ++ l := by
  simp [joinRec, List.foldl_append]

theorem joinRec_ne_nil (r : List Char) (rs : List (List Char)) (h : r ≠ []) :
    joinRec r rs ≠ [] := by
  induction rs generalizing r with
  | nil => exact h
  | cons l ls ih =>
    rw [joinRec_cons]
    intro hx
    exact h (List.append_eq_nil.mp hx).1

theorem splitOnDelim_joinRec (r : List Char) (rs : List (List Char))
    (hr : containsDelim r = false) (hrs : ∀ l ∈ rs, containsDelim l = false) :
    splitOnDelim (joinRec r rs) = r :: rs := by
  induction rs generalizing r with
  | nil => exact splitOnDelim_no_delim r hr
  | cons l ls ih =>
    rw [joinRec_cons, splitOnDelim_append r (joinRec l ls) hr,
      ih l (hrs l (by simp)) (fun x hx => hrs x (by simp [hx]))]

theorem matchHere_append (toks : List PatTok) (cs ds : List Char)
    (h : matchHere toks cs = true) : matchHere toks (cs ++ ds) = true := by
  induction toks generalizing cs with
  | nil => rfl
  | cons t ts ih =>
    cases cs with
    | nil => exact absurd h (by simp [matchHere])
    | cons c cs =>
      rw [List.cons_append, matchHere]
      rw [matchHere, Bool.and_eq_true] at h
      rw [h.1, ih cs h.2, Bool.and_self]

theorem findTemplate_isSome_append (sep : Char) (cs ds : List Char)
    (h : (findTemplate sep cs).isSome = true) :
    (findTemplate sep (cs ++ ds)).isSome = true := by
  induction cs with
  | nil => exact absurd h (by simp [findTemplate])
  | cons c cs ih =>
    rw [List.cons_append, findTemplate]
    rw [findTemplate] at h
    by_cases hm : matchHere (timeToks sep) (c :: cs) = true
    · rw [← List.cons_append, if_pos (matchHere_append _ _ _ hm)]
      rfl
    · rw [if_neg hm] at h
      by_cases hm2 : matchHere (timeToks sep) (c :: (cs ++ ds)) = true
      · rw [if_pos hm2]
        rfl
      · rw [if_neg hm2]
        exact ih h

theorem matchesTemplate_append (sep : Char) (cs ds : List Char)
    (h : matchesTemplate sep cs = true) : matchesTemplate sep (cs ++ ds) = true :=
  findTemplate_isSome_append sep cs ds h

theorem supportPattern_ne_defaultPattern : supportPattern ≠ defaultPattern := by decide

theorem regexMatchString_append (pat : List Char)
    (hpat : pat = defaultPattern ∨ pat = supportPattern) (cs ds : List Char)
    (h : regexMatchString pat cs = true) :
    regexMatchString pat (cs ++ ds) = true := by
  rcases hpat with hp | hp <;> subst hp
  · rw [regexMatchString, if_pos rfl] at h ⊢
    exact matchesTemplate_append ',' cs ds h
  · rw [regexMatchString, if_neg supportPattern_ne_defaultPattern, if_pos rfl] at h ⊢
    exact matchesTemplate_append '.' cs ds h

theorem regexMatchString_nil (pat : List Char)
    (hpat : pat = defaultPattern ∨ pat = supportPattern) :
    regexMatchString pat [] = false := by
  rcases hpat with hp | hp <;> subst hp <;> decide

theorem processLogFileLoop_all_match (pat : List Char)
    (hpat : pat = defaultPattern ∨ pat = supportPattern) (lines : List (List Char)) :
    ∀ cur, (cur = [] ∨ regexMatchString pat cur = true) →
      ∀ l ∈ processLogFileLoop pat cur lines, regexMatchString pat l = true := by
  induction lines with
  | nil =>
    intro cur hcur l hl
    rw [processLogFileLoop] at hl
    split at hl
    · rcases hcur with h | h
      · simp [h] at *
      · simp at hl; rwa [hl]
    · simp at hl
  | cons line rest ih =>
    intro cur hcur l hl
    rw [processLogFileLoop] at hl
    split at hl
    · rename_i hline
      rw [List.mem_append] at hl
      rcases hl with hl | hl
      · split at hl <;> simp at hl
        rcases hcur with h | h
        · rename_i hne; exact absurd h hne
        · rwa [hl]
      · exact ih line (Or.inr hline) l hl
    · rename_i hline
      split at hl
      · rename_i hne
        refine ih _ (Or.inr ?_) l hl
        rcases hcur with h | h
        · exact absurd h hne
        · have hx := regexMatchString_append pat hpat cur
            (lineContinuationDelimiter ++ line) h
          rwa [← List.append_assoc] at hx
      · exact ih cur hcur l hl

theorem formatSupportLoop_all_match (pat : List Char) (outs : List (List Char))
    (h : ∀ l ∈ outs, regexMatchString pat l = true) :
    ∀ buf, formatSupportLoop pat buf outs = buf ++ (outs.map splitOnDelim).flatten := by
  induction outs with
  | nil => intro buf; simp [formatSupportLoop]
  | cons l rest ih =>
    intro buf
    rw [formatSupportLoop, if_pos (h l (by simp)), ih (fun x hx => h x (by simp [hx])) []]
    simp

theorem expand_coalesce_aux (pat : List Char)
    (hpat : pat = defaultPattern ∨ pat = supportPattern) (ls : List (List Char)) :
    ∀ (r : List Char) (rs : List (List Char)),
      regexMatchString pat r = true →
      containsDelim r = false →
      (∀ l ∈ rs, containsDelim l = false) →
      (∀ l ∈ ls, containsDelim l = false) →
      ((processLogFileLoop pat (joinRec r rs) ls).map splitOnDelim).flatten
        = r :: (rs ++ ls) := by
  induction ls with
  | nil =>
    intro r rs hr hrc hrs _
    have hne : joinRec r rs ≠ [] := joinRec_ne_nil r rs (by
      intro hnil
      rw [hnil, regexMatchString_nil pat hpat] at hr
      exact Bool.false_ne_true hr)
    rw [processLogFileLoop, if_pos hne]
    simp only [List.map_cons, List.map_nil, List.flatten_cons, List.flatten_nil,
      List.append_nil]
    rw [splitOnDelim_joinRec r rs hrc hrs]
  | cons line rest ih =>
    intro r rs hr hrc hrs hls
    have hlinec : containsDelim line = false := hls line (by simp)
    have hrestc : ∀ l ∈ rest, containsDelim l = false := fun x hx => hls x (by simp [hx])
    have hne : joinRec r rs ≠ [] := joinRec_ne_nil r rs (by
      intro hnil
      rw [hnil, regexMatchString_nil pat hpat] at hr
      exact Bool.false_ne_true hr)
    rw [processLogFileLoop]
    by_cases hm : regexMatchString pat line = true
    · rw [if_pos hm, if_pos hne]
      rw [List.map_append, List.flatten_append]
      have hx := ih line [] hm hlinec (by simp) hrestc
      rw [joinRec] at hx
      simp only [List.foldl_nil] at hx
      rw [hx]
      simp only [List.map_cons, List.map_nil, List.flatten_cons, List.flatten_nil,
        List.append_nil]
      rw [splitOnDelim_joinRec r rs hrc hrs]
      simp
    · rw [if_neg hm, if_pos hne]
      have hstep : joinRec r rs ++ lineContinuationDelimiter ++ line
          = joinRec r (rs ++ [line]) := (joinRec_snoc r line rs).symm
      rw [hstep]
      rw [ih r (rs ++ [line]) hr hrc
        (by intro x hx; rcases List.mem_append.mp hx with h | h
            · exact hrs x h
            · simp at h; rwa [h])
        hrestc]
      simp

/-- C1.  Coalesce/expand round-trip: over the detected timestamp pattern, for
a line sequence in which the first physical line (if any) matches the pattern
and no line contains the sentinel token, expanding (`formatSupport`'s split
step) the records the Coalescer (`processLogFile`'s join step) emits yields
exactly the original line sequence. -/
theorem coalesce_expand_roundtrip (pat : List Char)
    (hpat : pat = defaultPattern ∨ pat = supportPattern)
    (lines : List (List Char))
    (hdelim : ∀ l ∈ lines, containsDelim l = false)
    (hhead : headMatches pat lines = true) :
    formatSupportLines pat (processLogFileRecords pat lines) = lines := by
  cases lines with
  | nil => rfl
  | cons l ls =>
    rw [headMatches] at hhead
    have hrec : processLogFileRecords pat (l :: ls) = processLogFileLoop pat l ls := by
      rw [processLogFileRecords, processLogFileLoop, if_pos hhead]
      simp
    rw [hrec, formatSupportLines,
      formatSupportLoop_all_match pat _
        (processLogFileLoop_all_match pat hpat ls l (Or.inr hhead)) [],
      List.nil_append]
    have hx := expand_coalesce_aux pat hpat ls l [] hhead
      (hdelim l (by simp)) (by simp) (fun x hx => hdelim x (by simp [hx]))
    rw [joinRec] at hx
    simp only [List.foldl_nil] at hx
    rw [hx]
    simp

/-- C1 witness: the round-trip theorem applied to the concrete scenario
file. -/
theorem coalesce_expand_roundtrip_witness :
    formatSupportLines supportPattern (processLogFileRecords supportPattern
      ["2024-01-01 10:00:00.100 start".toList, "  stack trace".toList,
       "2024-01-01 10:00:00.050 other".toList])
      = ["2024-01-01 10:00:00.100 start".toList, "  stack trace".toList,
         "2024-01-01 10:00:00.050 other".toList] :=
  coalesce_expand_roundtrip supportPattern (Or.inr rfl) _ (by decide) (by decide)

/-- C10.  Intermediate-file invariant: every record the Coalescer emits
contains at least one substring matching the detected timestamp pattern (a
record is only started from a matching line; non-matching lines are only
appended to a non-empty accumulator, and matching is preserved by appending
to the right). -/
theorem coalesced_records_match (pat : List Char)
    (hpat : pat = defaultPattern ∨ pat = supportPattern)
    (lines : List (List Char)) :
    ∀ l ∈ processLogFileRecords pat lines, regexMatchString pat l = true :=
  processLogFileLoop_all_match pat hpat lines [] (Or.inl rfl)

/-- C10 witness: the invariant applied to the coalesced record of the
scenario file. -/
theorem coalesced_records_match_witness :
    regexMatchString supportPattern
      "2024-01-01 10:00:00.100 startappTesting  stack trace".toList = true :=
  coalesced_records_match supportPattern (Or.inr rfl)
    ["2024-01-01 10:00:00.100 start".toList, "  stack trace".toList] _ (by decide)

/-- C3 counterexample: a leading non-matching line is not emitted at all by
the Coalescer (the claim says it is emitted standalone, and that no input
line is dropped). -/
theorem orphan_line_dropped_counterexample :
    "  stack trace".toList ∉
      processLogFileRecords supportPattern
        ["  stack trace".toList, "2024-01-01 10:00:00.100 start".toList] := by decide

/-- C3 amended: leading non-matching lines (before the first pattern-matching
line) are silently dropped by the Coalescer — the output is exactly that of
the input without them; they are not emitted standalone. -/
theorem leading_nonmatching_dropped (pat : List Char) (pre rest : List (List Char))
    (hpre : ∀ l ∈ pre, regexMatchString pat l = false) :
    processLogFileRecords pat (pre ++ rest) = processLogFileRecords pat rest := by
  induction pre with
  | nil => rfl
  | cons p ps ih =>
    rw [processLogFileRecords, List.cons_append, processLogFileLoop,
      if_neg (by rw [hpre p (by simp)]; exact Bool.false_ne_true), if_neg (by simp)]
    exact ih (fun x hx => hpre x (by simp [hx]))

/-- C3 amended witness: the drop equation at a concrete orphan line. -/
theorem leading_nonmatching_dropped_witness :
    processLogFileRecords supportPattern
        ["  stack trace".toList, "2024-01-01 10:00:00.100 start".toList]
      = processLogFileRecords supportPattern ["2024-01-01 10:00:00.100 start".toList] :=
  leading_nonmatching_dropped supportPattern ["  stack trace".toList]
    ["2024-01-01 10:00:00.100 start".toList] (by decide)

theorem dropLast_modifyHead {α : Type} (f : α → α) (L : List α) :
    (L.modifyHead f).dropLast = L.dropLast.modifyHead f := by
  cases L with
  | nil => rfl
  | cons h t =>
    cases t with
    | nil => rfl
    | cons x xs => rfl

theorem splitOnP_dropLast_append (p : Char → Bool) (c rest : List Char)
    (hrest : ∀ x ∈ rest, ¬p x = true) :
    ((c ++ rest).splitOnP p).dropLast = (c.splitOnP p).dropLast := by
  induction c with
  | nil =>
    rw [List.nil_append, List.splitOnP_eq_single p rest hrest, List.splitOnP_nil]
    rfl
  | cons a c ih =>
    rw [List.cons_append, List.splitOnP_cons, List.splitOnP_cons]
    by_cases hp : p a = true
    · rw [if_pos hp, if_pos hp,
        List.dropLast_cons_of_ne_nil (List.splitOnP_ne_nil _ _),
        List.dropLast_cons_of_ne_nil (List.splitOnP_ne_nil _ _), ih]
    · rw [if_neg hp, if_neg hp, dropLast_modifyHead, dropLast_modifyHead, ih]

theorem readLines_append_tail (content rest : List Char) (h : '\n' ∉ rest) :
    readLines (content ++ rest) = readLines content := by
  rw [readLines, readLines]
  congr 1
  show ((content ++ rest).splitOnP (· == '\n')).dropLast
    = (content.splitOnP (· == '\n')).dropLast
  exact splitOnP_dropLast_append _ content rest
    (by intro x hx hbeq; exact h (beq_iff_eq.mp hbeq ▸ hx))

/-- C9.  A final physical line not terminated by a newline is discarded by
the Coalescer's read loop: the lines read and the records emitted are
exactly those of the content with the unterminated tail removed. -/
theorem unterminated_final_line_dropped (pat : List Char) (content rest : List Char)
    (hnl : '\n' ∉ rest) :
    readLines (content ++ rest) = readLines content ∧
      processLogFileRecords pat (readLines (content ++ rest))
        = processLogFileRecords pat (readLines content) :=
  ⟨readLines_append_tail content rest hnl,
    by rw [readLines_append_tail content rest hnl]⟩

/-- C9 witness: the drop at a concrete unterminated file. -/
theorem unterminated_final_line_dropped_witness :
    readLines ("2024-01-01 10:00:00.100 start\n".toList ++ "partial tail".toList)
        = readLines "2024-01-01 10:00:00.100 start\n".toList ∧
      processLogFileRecords supportPattern
          (readLines ("2024-01-01 10:00:00.100 start\n".toList ++ "partial tail".toList))
        = processLogFileRecords supportPattern
            (readLines "2024-01-01 10:00:00.100 start\n".toList) :=
  unterminated_final_line_dropped supportPattern
    "2024-01-01 10:00:00.100 start\n".toList "partial tail".toList (by decide)

theorem determineDateTimePatternLines_eq_nil (lines : List (List Char))
    (h : ∀ l ∈ lines, matchesTemplate ',' l = false ∧ matchesTemplate '.' l = false) :
    determineDateTimePatternLines lines = [] := by
  induction lines with
  | nil => rfl
  | cons l ls ih =>
    rw [determineDateTimePatternLines,
      if_neg (by rw [(h l (by simp)).1]; exact Bool.false_ne_true),
      if_neg (by rw [(h l (by simp)).2]; exact Bool.false_ne_true)]
    exact ih (fun x hx => h x (by simp [hx]))

/-- C7 counterexample: an unreadable source and a readable source with no
recognized pattern in its leading lines produce the very same empty-string
result, so the caller cannot distinguish the two failures by the returned
value. -/
theorem detector_errors_indistinct_counterexample :
    determineDateTimePattern (.error ()) = [] ∧
      determineDateTimePattern (.ok "hello world\nsecond line\n".toList) = [] := by
  constructor
  · rfl
  · decide

/-- C7 amended: the Pattern Detector returns the empty pattern for an
unreadable source, which is the same value it returns for a readable source
none of whose first five scanned lines matches a recognized pattern; the two
failures differ only in a printed diagnostic, not in the value the caller
receives. -/
theorem detector_error_result (e : Unit) (content : List Char)
    (h : ∀ l ∈ (scanLines content).take 5,
      matchesTemplate ',' l = false ∧ matchesTemplate '.' l = false) :
    determineDateTimePattern (.error e) = [] ∧
      determineDateTimePattern (.ok content) = [] :=
  ⟨rfl, determineDateTimePatternLines_eq_nil _ h⟩

/-- C7 amended witness: both failure modes at concrete sources. -/
theorem detector_error_result_witness :
    determineDateTimePattern (.error ()) = [] ∧
      determineDateTimePattern (.ok "hello world\nsecond line\n".toList) = [] :=
  detector_error_result () "hello world\nsecond line\n".toList (by decide)

theorem charDigit_toNat : ∀ d, d < 10 → (Char.ofNat (48 + d)).toNat - 48 = d := by decide

theorem charsVal_append_digit (xs : List Char) (c : Char) :
    charsVal (xs ++ [c]) = 10 * charsVal xs + (c.toNat - 48) := by
  simp [charsVal, List.foldl_append]

theorem charsVal_natCharsGo : ∀ fuel n, n ≤ fuel → charsVal (natCharsGo fuel n) = n := by
  intro fuel
  induction fuel with
  | zero =>
    intro n h
    have hn : n = 0 := by omega
    subst hn
    rfl
  | succ fuel ih =>
    intro n h
    rw [natCharsGo]
    by_cases hn : n = 0
    · subst hn; simp [charsVal]
    · rw [if_neg hn, charsVal_append_digit, ih (n / 10) (by omega),
        charDigit_toNat (n % 10) (Nat.mod_lt n (by norm_num))]
      omega

theorem charsVal_natChars (n : Nat) : charsVal (natChars n) = n := by
  by_cases h : n = 0
  · subst h; decide
  · rw [natChars, if_neg h]
    exact charsVal_natCharsGo n n le_rfl

theorem natChars_inj {n m : Nat} (h : natChars n = natChars m) : n = m := by
  have h1 := charsVal_natChars n
  have h2 := charsVal_natChars m
  rw [← h1, ← h2, h]

theorem candName_inj (p : List Char) {n m : Nat} (h : candName p n = candName p m) :
    n = m := by
  rw [candName, candName] at h
  have h2 : stemOf p ++ (natChars n ++ extOf p) = stemOf p ++ (natChars m ++ extOf p) := by
    by_cases h1 : dirOf p = ['.']
    · rw [joinPath, joinPath, if_pos h1, if_pos h1] at h
      simpa [List.append_assoc] using h
    · by_cases hl : (dirOf p).getLast? = some '/'
      · rw [joinPath, joinPath, if_neg h1, if_neg h1, if_pos hl, if_pos hl] at h
        have hx := List.append_cancel_left h
        simpa [List.append_assoc] using hx
      · rw [joinPath, joinPath, if_neg h1, if_neg h1, if_neg hl, if_neg hl] at h
        have hx := List.append_cancel_left h
        rw [List.cons.injEq] at hx
        simpa [List.append_assoc] using hx.2
  have h3 := List.append_cancel_left h2
  have hlen : (natChars n).length = (natChars m).length := by
    have hl := congrArg List.length h3
    simp only [List.length_append] at hl
    omega
  exact natChars_inj (List.append_inj h3 hlen).1

theorem exists_cand_not_mem (fs : List (List Char)) (p : List Char) :
    ∃ n, 1 ≤ n ∧ n ≤ fs.length + 1 ∧ candName p n ∉ fs := by
  by_contra hall
  push_neg at hall
  have hnodup : ((List.range' 1 (fs.length + 1)).map (candName p)).Nodup :=
    List.Nodup.map (fun a b hab => candName_inj p hab) (List.nodup_range' 1 (fs.length + 1))
  have hsub : ((List.range' 1 (fs.length + 1)).map (candName p)).toFinset ⊆ fs.toFinset := by
    intro x hx
    rw [List.mem_toFinset] at hx ⊢
    obtain ⟨k, hk, rfl⟩ := List.mem_map.mp hx
    obtain ⟨hk1, hk2⟩ := List.mem_range'_1.mp hk
    exact hall k hk1 (by omega)
  have hcontra : fs.length + 1 ≤ fs.length := by
    calc fs.length + 1
        = ((List.range' 1 (fs.length + 1)).map (candName p)).length := by
          rw [List.length_map, List.length_range']
      _ = ((List.range' 1 (fs.length + 1)).map (candName p)).toFinset.card :=
          (List.toFinset_card_of_nodup hnodup).symm
      _ ≤ fs.toFinset.card := Finset.card_le_card hsub
      _ ≤ fs.length := List.toFinset_card_le fs
  omega

theorem getUniqueLoop_at_free (fs : List (List Char)) (p cur : List Char)
    (hcur : cur ∉ fs) : ∀ fuel count, getUniqueLoop fs p fuel count cur = cur := by
  intro fuel count
  cases fuel with
  | zero => rfl
  | succ fuel => rw [getUniqueLoop, if_neg hcur]

theorem getUniqueLoop_reaches (fs : List (List Char)) (p : List Char) (N : Nat)
    (hN : candName p N ∉ fs) (hmin : ∀ k, 1 ≤ k → k < N → candName p k ∈ fs) :
    ∀ fuel count cur, 1 ≤ count → count ≤ N → N < count + fuel → cur ∈ fs →
      getUniqueLoop fs p fuel count cur = candName p N := by
  intro fuel
  induction fuel with
  | zero => intro count cur _ h2 h3 _; omega
  | succ fuel ih =>
    intro count cur h1 h2 h3 hcur
    rw [getUniqueLoop, if_pos hcur]
    by_cases hc : count = N
    · subst hc
      exact getUniqueLoop_at_free fs p _ hN fuel (count + 1)
    · exact ih (count + 1) (candName p count) (by omega) (by omega) (by omega)
        (hmin count h1 (by omega))

/-- C8.  Collision-safe naming: `getUniqueFileName` returns the requested
path itself when no file exists there, and otherwise the first candidate
`stem<N>ext` (N = 1, 2, ...) joined to the directory that does not already
exist; in particular the returned path never collides with an existing
one. -/
theorem getUniqueFileName_spec (fs : List (List Char)) (p : List Char) :
    getUniqueFileName fs p ∉ fs ∧
      (p ∉ fs → getUniqueFileName fs p = p) ∧
      (p ∈ fs → ∃ N, 1 ≤ N ∧ candName p N ∉ fs ∧
        (∀ k, 1 ≤ k → k < N → candName p k ∈ fs) ∧
        getUniqueFileName fs p = candName p N) := by
  by_cases hp : p ∈ fs
  · have hex : ∃ n, 1 ≤ n ∧ candName p n ∉ fs := by
      obtain ⟨n, h1, _, h3⟩ := exists_cand_not_mem fs p
      exact ⟨n, h1, h3⟩
    have hNspec := Nat.find_spec hex
    have hmin : ∀ k, 1 ≤ k → k < Nat.find hex → candName p k ∈ fs := by
      intro k hk1 hk2
      by_contra hk
      exact Nat.find_min hex hk2 ⟨hk1, hk⟩
    have hNle : Nat.find hex ≤ fs.length + 1 := by
      obtain ⟨n, h1, h2, h3⟩ := exists_cand_not_mem fs p
      have := Nat.find_min' hex ⟨h1, h3⟩
      omega
    have hloop : getUniqueFileName fs p = candName p (Nat.find hex) := by
      rw [getUniqueFileName]
      exact getUniqueLoop_reaches fs p (Nat.find hex) hNspec.2 hmin
        (fs.length + 2) 1 p le_rfl hNspec.1 (by omega) hp
    refine ⟨?_, ?_, ?_⟩
    · rw [hloop]; exact hNspec.2
    · intro h; exact absurd hp h
    · intro _; exact ⟨Nat.find hex, hNspec.1, hNspec.2, hmin, hloop⟩
  · have heq : getUniqueFileName fs p = p := by
      rw [getUniqueFileName, getUniqueLoop, if_neg hp]
    exact ⟨by rw [heq]; exact hp, fun _ => heq, fun h => absurd h hp⟩

/-- C8 witness: the specification applied at concrete paths — a fresh path
is returned unchanged, and a colliding path gets the first free numbered
candidate. -/
theorem getUniqueFileName_spec_witness :
    getUniqueFileName [] "/logs/ProcessedLogs/app.log".toList
        = "/logs/ProcessedLogs/app.log".toList ∧
      getUniqueFileName ["/logs/ProcessedLogs/app.log".toList]
          "/logs/ProcessedLogs/app.log".toList
        = "/logs/ProcessedLogs/app1.log".toList :=
  ⟨(getUniqueFileName_spec [] "/logs/ProcessedLogs/app.log".toList).2.1 (by decide),
    by decide⟩

section GoSortPerm

variable {α : Type} [Inhabited α] (less : α → α → Bool)

theorem set_getD_self : ∀ (l : List α) (i : Nat), l.set i (l.getD i default) = l
  | [], _ => rfl
  | _ :: _, 0 => rfl
  | a :: as, i + 1 => by
    show a :: as.set i ((a :: as).getD (i + 1) default) = a :: as
    rw [List.getD_cons_succ, set_getD_self as i]

theorem getD_cons_swap_perm (x : α) :
    ∀ (t : List α) (m : Nat), m < t.length →
      List.Perm (t.getD m default :: t.set m x) (x :: t) := by
  intro t
  induction t with
  | nil => intro m hm; simp at hm
  | cons y t ih =>
    intro m hm
    cases m with
    | zero => exact List.Perm.swap x y t
    | succ m =>
      rw [List.getD_cons_succ, List.set_cons_succ]
      have h1 := List.Perm.swap y (t.getD m default) (t.set m x)
      have h2 := List.Perm.cons y (ih m (by simpa using hm))
      have h3 := List.Perm.swap x y t
      exact (h1.trans h2).trans h3

theorem swapAt_perm (l : List α) (i j : Nat) : List.Perm (swapAt l i j) l := by
  rw [swapAt]
  by_cases hb : i < l.length ∧ j < l.length
  · rw [if_pos hb]
    by_cases hij : i = j
    · subst hij
      rw [List.set_set, set_getD_self]
    · induction l generalizing i j with
      | nil => simp at hb
      | cons a t ih =>
        cases i with
        | zero =>
          cases j with
          | zero => exact absurd rfl hij
          | succ j =>
            show List.Perm (t.getD j default :: t.set j a) (a :: t)
            exact getD_cons_swap_perm a t j (by simpa using hb.2)
        | succ i =>
          cases j with
          | zero =>
            show List.Perm (t.getD i default :: t.set i a) (a :: t)
            exact getD_cons_swap_perm a t i (by simpa using hb.1)
          | succ j =>
            show List.Perm (a :: (t.set i (t.getD j default)).set j (t.getD i default)) (a :: t)
            exact List.Perm.cons a
              (ih i j ⟨by simpa using hb.1, by simpa using hb.2⟩ (fun hx => hij (by omega)))
  · rw [if_neg hb]

theorem insertionInner_perm (a : Nat) :
    ∀ (j : Nat) (l : List α), List.Perm (insertionInner less a l j) l := by
  intro j
  induction j with
  | zero => intro l; exact List.Perm.refl l
  | succ j ih =>
    intro l
    rw [insertionInner]
    split
    · exact (ih _).trans (swapAt_perm _ _ _)
    · exact List.Perm.refl l

theorem insertionOuter_perm (a b : Nat) :
    ∀ (fuel : Nat) (l : List α) (i : Nat), List.Perm (insertionOuter less a b fuel l i) l := by
  intro fuel
  induction fuel with
  | zero => intro l i; exact List.Perm.refl l
  | succ fuel ih =>
    intro l i
    rw [insertionOuter]
    split
    · exact (ih _ _).trans (insertionInner_perm less a i l)
    · exact List.Perm.refl l

theorem insertionSortGo_perm (l : List α) (a b : Nat) :
    List.Perm (insertionSortGo less l a b) l :=
  insertionOuter_perm less a b (b + 1) l (a + 1)

theorem siftDownLoop_perm :
    ∀ (fuel : Nat) (l : List α) (hi first root : Nat),
      List.Perm (siftDownLoop less fuel l hi first root) l := by
  intro fuel
  induction fuel with
  | zero => intro l _ _ _; exact List.Perm.refl l
  | succ fuel ih =>
    intro l hi first root
    rw [siftDownLoop]
    dsimp only
    split
    · split
      · split
        · exact (ih _ _ _ _).trans (swapAt_perm _ _ _)
        · exact List.Perm.refl l
      · split
        · exact (ih _ _ _ _).trans (swapAt_perm _ _ _)
        · exact List.Perm.refl l
    · exact List.Perm.refl l

theorem heapBuildLoop_perm (hi first : Nat) :
    ∀ (k : Nat) (l : List α), List.Perm (heapBuildLoop less hi first l k) l := by
  intro k
  induction k with
  | zero => intro l; exact List.Perm.refl l
  | succ k ih =>
    intro l
    exact (ih _).trans (siftDownLoop_perm less (hi + 1) l hi first k)

theorem heapPopLoop_perm (first : Nat) :
    ∀ (k : Nat) (l : List α), List.Perm (heapPopLoop less first l k) l := by
  intro k
  induction k with
  | zero => intro l; exact List.Perm.refl l
  | succ k ih =>
    intro l
    exact (ih _).trans ((siftDownLoop_perm less (k + 1) _ k first 0).trans
      (swapAt_perm _ _ _))

theorem heapSortGo_perm (l : List α) (a b : Nat) :
    List.Perm (heapSortGo less l a b) l :=
  (heapPopLoop_perm less a (b - a) _).trans (heapBuildLoop_perm less (b - a) a _ l)

theorem reverseLoop_perm :
    ∀ (fuel : Nat) (l : List α) (i j : Nat), List.Perm (reverseLoop fuel l i j) l := by
  intro fuel
  induction fuel with
  | zero => intro l _ _; exact List.Perm.refl l
  | succ fuel ih =>
    intro l i j
    rw [reverseLoop]
    split
    · exact (ih _ _ _).trans (swapAt_perm _ _ _)
    · exact List.Perm.refl l

theorem reverseRangeGo_perm (l : List α) (a b : Nat) :
    List.Perm (reverseRangeGo l a b) l :=
  reverseLoop_perm (b + 1) l a (b - 1)

theorem breakPatternsStep_perm (a len modulus idx : Nat) (st : List α × Nat) (i : Nat) :
    List.Perm (breakPatternsStep a len modulus idx st i).1 st.1 := by
  rw [breakPatternsStep]
  exact swapAt_perm _ _ _

theorem breakPatternsGo_perm (l : List α) (a b : Nat) :
    List.Perm (breakPatternsGo l a b) l := by
  rw [breakPatternsGo]
  dsimp only
  split
  · exact (breakPatternsStep_perm _ _ _ _ _ _).trans
      ((breakPatternsStep_perm _ _ _ _ _ _).trans (breakPatternsStep_perm _ _ _ _ _ _))
  · exact List.Perm.refl l

theorem piShiftLeft_perm :
    ∀ (j : Nat) (l : List α), List.Perm (piShiftLeft less l j) l := by
  intro j
  induction j with
  | zero => intro l; exact List.Perm.refl l
  | succ j ih =>
    intro l
    rw [piShiftLeft]
    split
    · exact (ih _).trans (swapAt_perm _ _ _)
    · exact List.Perm.refl l

theorem piShiftRight_perm (b : Nat) :
    ∀ (fuel : Nat) (l : List α) (j : Nat), List.Perm (piShiftRight less b fuel l j) l := by
  intro fuel
  induction fuel with
  | zero => intro l _; exact List.Perm.refl l
  | succ fuel ih =>
    intro l j
    rw [piShiftRight]
    split
    · split
      · exact (ih _ _).trans (swapAt_perm _ _ _)
      · exact List.Perm.refl l
    · exact List.Perm.refl l

theorem partialInsertionLoop_perm (a b : Nat) :
    ∀ (steps : Nat) (l : List α) (i : Nat),
      List.Perm (partialInsertionLoop less a b steps l i).1 l := by
  intro steps
  induction steps with
  | zero => intro l _; exact List.Perm.refl l
  | succ steps ih =>
    intro l i
    rw [partialInsertionLoop]
    dsimp only
    split
    · exact List.Perm.refl l
    · split
      · exact List.Perm.refl l
      · refine (ih _ _).trans ?_
        have hmid : ∀ l2 : List α,
            List.Perm (if 2 ≤ b - piScanI less l b (b + 1) i then
              piShiftRight less b (b + 1) l2 (piScanI less l b (b + 1) i + 1) else l2) l2 := by
          intro l2
          split
          · exact piShiftRight_perm less b (b + 1) l2 _
          · exact List.Perm.refl l2
        refine (hmid _).trans ?_
        have hleft : ∀ l2 : List α,
            List.Perm (if 2 ≤ piScanI less l b (b + 1) i - a then
              piShiftLeft less l2 (piScanI less l b (b + 1) i - 1) else l2) l2 := by
          intro l2
          split
          · exact piShiftLeft_perm less _ l2
          · exact List.Perm.refl l2
        exact (hleft _).trans (swapAt_perm _ _ _)

theorem partialInsertionSortGo_perm (l : List α) (a b : Nat) :
    List.Perm (partialInsertionSortGo less l a b).1 l :=
  partialInsertionLoop_perm less a b 5 l (a + 1)

theorem partitionLoop_perm (a b : Nat) :
    ∀ (fuel : Nat) (l : List α) (i j : Nat),
      List.Perm (partitionLoop less a b fuel l i j).1 l := by
  intro fuel
  induction fuel with
  | zero => intro l _ _; exact List.Perm.refl l
  | succ fuel ih =>
    intro l i j
    rw [partitionLoop]
    split
    · exact List.Perm.refl l
    · exact (ih _ _ _).trans (swapAt_perm _ _ _)

theorem partitionGo_perm (l : List α) (a b pivot : Nat) :
    List.Perm (partitionGo less l a b pivot).1 l := by
  rw [partitionGo]
  dsimp only
  split
  · exact (swapAt_perm _ _ _).trans (swapAt_perm _ _ _)
  · exact (swapAt_perm _ _ _).trans ((partitionLoop_perm less a b (b + 2) _ _ _).trans
      ((swapAt_perm _ _ _).trans (swapAt_perm _ _ _)))

theorem partitionEqualLoop_perm (a b : Nat) :
    ∀ (fuel : Nat) (l : List α) (i j : Nat),
      List.Perm (partitionEqualLoop less a b fuel l i j).1 l := by
  intro fuel
  induction fuel with
  | zero => intro l _ _; exact List.Perm.refl l
  | succ fuel ih =>
    intro l i j
    rw [partitionEqualLoop]
    split
    · exact List.Perm.refl l
    · exact (ih _ _ _).trans (swapAt_perm _ _ _)

theorem partitionEqualGo_perm (l : List α) (a b pivot : Nat) :
    List.Perm (partitionEqualGo less l a b pivot).1 l :=
  (partitionEqualLoop_perm less a b (b + 2) _ _ _).trans (swapAt_perm _ _ _)

theorem pdqsortLoop_perm :
    ∀ (fuel : Nat) (l : List α) (a b limit : Nat) (wb wp : Bool),
      List.Perm (pdqsortLoop less fuel l a b limit wb wp) l := by
  intro fuel
  induction fuel with
  | zero => intro l _ _ _ _ _; exact List.Perm.refl l
  | succ fuel ih =>
    intro l a b limit wb wp
    rw [pdqsortLoop]
    split
    · exact insertionSortGo_perm less l a b
    · split
      · exact heapSortGo_perm less l a b
      · generalize hbl : (if wb = false then (breakPatternsGo l a b, limit - 1)
            else (l, limit)) = blv
        have hblp : List.Perm blv.1 l := by
          rw [← hbl]
          split
          · exact breakPatternsGo_perm l a b
          · exact List.Perm.refl l
        dsimp only
        generalize hrv : (if (choosePivot less blv.1 a b).2 = SortHint.decreasing then
            (reverseRangeGo blv.1 a b, (b - 1) - ((choosePivot less blv.1 a b).1 - a),
              SortHint.increasing)
          else (blv.1, (choosePivot less blv.1 a b).1, (choosePivot less blv.1 a b).2)) = rvv
        have hrvp : List.Perm rvv.1 blv.1 := by
          rw [← hrv]
          split
          · exact reverseRangeGo_perm blv.1 a b
          · exact List.Perm.refl blv.1
        generalize hpi : (if wb = true ∧ wp = true ∧ rvv.2.2 = SortHint.increasing then
            partialInsertionSortGo less rvv.1 a b else (rvv.1, false)) = piv
        have hpip : List.Perm piv.1 rvv.1 := by
          rw [← hpi]
          split
          · exact partialInsertionSortGo_perm less rvv.1 a b
          · exact List.Perm.refl rvv.1
        have hch : List.Perm piv.1 l := (hpip.trans hrvp).trans hblp
        split
        · exact hch
        · split
          · exact (ih _ _ _ _ _ _).trans
              ((partitionEqualGo_perm less piv.1 a b rvv.2.1).trans hch)
          · split
            · exact (ih _ _ _ _ _ _).trans ((ih _ _ _ _ _ _).trans
                ((partitionGo_perm less piv.1 a b rvv.2.1).trans hch))
            · exact (ih _ _ _ _ _ _).trans ((ih _ _ _ _ _ _).trans
                ((partitionGo_perm less piv.1 a b rvv.2.1).trans hch))

theorem sortSlice_perm (l : List α) : List.Perm (sortSlice less l) l :=
  pdqsortLoop_perm less (2 * l.length + 8) l 0 l.length (bitsLen l.length) true true

end GoSortPerm

theorem parseGoTime_ranges (cs : List Char) (t : Instant) (h : parseGoTime cs = some t) :
    1 ≤ t.month ∧ 1 ≤ t.day := by
  rw [parseGoTime.eq_def] at h
  split at h
  · dsimp only at h
    split at h
    · split at h
      · rename_i hcond
        injection h with h2
        subst h2
        exact ⟨hcond.1, hcond.2.2.1⟩
      · exact absurd h (by simp)
    · exact absurd h (by simp)
  · exact absurd h (by simp)

theorem parseTimestampFromLine_ranges (pat l : List Char) (t : Instant)
    (h : parseTimestampFromLine pat l = some t) : 1 ≤ t.month ∧ 1 ≤ t.day := by
  rw [parseTimestampFromLine] at h
  split at h
  · exact absurd h (by simp)
  · split at h
    · exact absurd h (by simp)
    · exact parseGoTime_ranges _ t h

theorem instantBefore_zero_false (t : Instant) (hy : 1 ≤ t.year) (hm : 1 ≤ t.month)
    (hd : 1 ≤ t.day) : instantBefore t zeroInstant = false := by
  dsimp only [instantBefore, zeroInstant]
  split_ifs <;> simp only [decide_eq_false_iff_not] <;> omega

/-- C4 counterexample: a line whose matched timestamp parses to year 0000
sorts strictly before the zero instant assigned to an unparsable line, so an
unparsable line does not sort before every successfully parsed line. -/
theorem unparsable_not_first_counterexample :
    parseTimestampFromLine supportPattern "unparsable line".toList = none ∧
      parseTimestampFromLine supportPattern "0000-01-01 00:00:00.000 early".toList
        = some ⟨0, 1, 1, 0, 0, 0, 0⟩ ∧
      orderByDateLines supportPattern
          ["0000-01-01 00:00:00.000 early".toList, "unparsable line".toList]
        = ["0000-01-01 00:00:00.000 early".toList, "unparsable line".toList] := by decide

/-- C4 amended: a line whose timestamp cannot be found or parsed is assigned
the zero `time.Time` (0001-01-01 00:00:00.000), is still present in the
ordered output exactly as often as in the input (the sort permutes, never
drops), and its assigned instant is not after any successfully parsed
instant whose year is at least 1 (year-0000 timestamps sort earlier);
ordering always completes. -/
theorem orderByDate_unparsable_retained (pat : List Char) (rawLines : List (List Char)) :
    List.Perm (orderByDateLines pat rawLines) rawLines ∧
      (∀ l, parseTimestampFromLine pat l = none →
        mkLogLine pat l = { Timestamp := zeroInstant, Raw := l }) ∧
      (∀ l t, parseTimestampFromLine pat l = some t → 1 ≤ t.year →
        instantBefore t zeroInstant = false) := by
  refine ⟨?_, ?_, ?_⟩
  · rw [orderByDateLines]
    refine ((sortSlice_perm lessLogLine (rawLines.map (mkLogLine pat))).map
      LogLine.Raw).trans ?_
    rw [List.map_map, show LogLine.Raw ∘ mkLogLine pat = id from funext (fun _ => rfl),
      List.map_id]
  · intro l hl
    rw [mkLogLine, hl]
    rfl
  · intro l t hl hy
    obtain ⟨hm, hd⟩ := parseTimestampFromLine_ranges pat l t hl
    exact instantBefore_zero_false t hy hm hd

/-- C4 amended witness: the retention equations at a concrete unparsable
line. -/
theorem orderByDate_unparsable_retained_witness :
    List.Perm (orderByDateLines supportPattern ["unparsable line".toList])
        ["unparsable line".toList] ∧
      mkLogLine supportPattern "unparsable line".toList
        = { Timestamp := zeroInstant, Raw := "unparsable line".toList } :=
  ⟨(orderByDate_unparsable_retained supportPattern ["unparsable line".toList]).1,
    (orderByDate_unparsable_retained supportPattern ["unparsable line".toList]).2.1
      "unparsable line".toList (by decide)⟩

/-- C2: at a 13-line merged input, `orderByDate` (via Go's `sort.Slice`,
which is pdqsort and not stable) outputs the two equal-timestamp lines `A`
and `B` in the reverse of their input order: the sort is not stable. -/
theorem orderByDate_unstable_counterexample :
    (mkLogLine supportPattern "2024-01-01 10:00:00.003 A".toList).Timestamp
        = (mkLogLine supportPattern "2024-01-01 10:00:00.003 B".toList).Timestamp ∧
      orderByDateLines supportPattern orderStabilityInput = orderStabilityOutput := by decide

/-- C5: with the empty (undetected) pattern, `orderByDate` writes its input
lines unchanged, but the final artifact after `formatSupport` is not a copy
of the merged input: the newline-free last line is discarded at EOF, and the
empty compiled pattern matches every line, so lines containing the sentinel
are split at it. -/
theorem degraded_mode_not_copy :
    orderByDate [] "a\n".toList = "a".toList ∧
      formatSupport [] (orderByDate [] "a\n".toList) = [] ∧
      formatSupport [] "xappTestingy\na".toList = "x\ny\n".toList := by decide

/-- C6: the full pipeline at the scenario file.  Detection yields the
period-separated pattern, coalescing yields exactly the two claimed records,
ordering puts the earlier record first — but the final artifact contains
only the first ordered line: `orderByDate` writes no trailing newline and
`formatSupport` discards the final unterminated line, so the `start` record
and its continuation are missing from the claimed three-line output. -/
theorem scenario_end_to_end_diverges :
    determineDateTimePattern (.ok scenarioContent) = supportPattern ∧
      processLogFileRecords supportPattern (readLines scenarioContent)
        = ["2024-01-01 10:00:00.100 startappTesting  stack trace".toList,
           "2024-01-01 10:00:00.050 other".toList] ∧
      processLogFile scenarioContent = some
        "2024-01-01 10:00:00.100 startappTesting  stack trace\n2024-01-01 10:00:00.050 other\n".toList ∧
      mergeProcessedLogs
          ["2024-01-01 10:00:00.100 startappTesting  stack trace\n2024-01-01 10:00:00.050 other\n".toList]
        = "2024-01-01 10:00:00.100 startappTesting  stack trace\n2024-01-01 10:00:00.050 other\n".toList ∧
      determineDateTimePattern (.ok
          "2024-01-01 10:00:00.100 startappTesting  stack trace\n2024-01-01 10:00:00.050 other\n".toList)
        = supportPattern ∧
      orderByDate supportPattern
          "2024-01-01 10:00:00.100 startappTesting  stack trace\n2024-01-01 10:00:00.050 other\n".toList
        = "2024-01-01 10:00:00.050 other\n2024-01-01 10:00:00.100 startappTesting  stack trace".toList ∧
      formatSupport supportPattern
          "2024-01-01 10:00:00.050 other\n2024-01-01 10:00:00.100 startappTesting  stack trace".toList
        = "2024-01-01 10:00:00.050 other\n".toList ∧
      readLines "2024-01-01 10:00:00.050 other\n".toList
        ≠ ["2024-01-01 10:00:00.050 other".toList, "2024-01-01 10:00:00.100 start".toList,
           "  stack trace".toList] := by decide

end MergeOrderLog
